import Mathlib

/-!
Verification of the height-map construction and discontinuity-aware
resampling pipeline of `generate_proxy_cloud` (uavmvs).

The C++ core is shallowly embedded over exact rationals: 32-bit float
values become `ℚ`, the float sentinel `std::numeric_limits<float>::lowest()`
becomes the exact rational value of that float, C++ `float → int`
conversion becomes truncation toward zero, and the height-map image
becomes a total function `ℤ → ℤ → ℚ` together with its width and height.
Sample normals involve a square-root normalization that is irrational; a
sample's normal is therefore recorded symbolically by which of the three
source formulas produced it (straight-up, blended, or pure-gradient wall),
carrying the exact Sobel responses `gx`, `gy`.
-/

namespace UAVMVS

/-- Exact value of `std::numeric_limits<float>::lowest()`, the grid
sentinel: the numeral is `-(2^128 - 2^104)` written out so that kernel
evaluation works. -/
def lowest : ℚ := -340282346638528859811704183484516925440

/-- Exact value of `std::numeric_limits<float>::max()`, the AABB fold seed
(`2^128 - 2^104`). -/
def floatMax : ℚ := 340282346638528859811704183484516925440

/-- C++ float-to-int conversion: truncation toward zero. -/
def cppTrunc (q : ℚ) : ℤ := if 0 ≤ q then ⌊q⌋ else ⌈q⌉

/-- A 3-D point of the input cloud. -/
structure P3 where
  x : ℚ
  y : ℚ
  z : ℚ
deriving DecidableEq

/-- Axis-aligned bounding box, as in `struct AABB`. -/
structure AABB where
  min : P3
  max : P3
deriving DecidableEq

/-- Componentwise min/max folds over the cloud, seeded with `±floatMax`
exactly as in the source's AABB computation loop. -/
def aabbOf (pts : List P3) : AABB :=
  { min := ⟨pts.foldl (fun a p => min a p.x) floatMax,
            pts.foldl (fun a p => min a p.y) floatMax,
            pts.foldl (fun a p => min a p.z) floatMax⟩
    max := ⟨pts.foldl (fun a p => max a p.x) (-floatMax),
            pts.foldl (fun a p => max a p.y) (-floatMax),
            pts.foldl (fun a p => max a p.z) (-floatMax)⟩ }

/-- `volume(AABB)`: zero when any extent is nonpositive, else the product. -/
def volume (bb : AABB) : ℚ :=
  if bb.max.x - bb.min.x ≤ 0 ∨ bb.max.y - bb.min.y ≤ 0 ∨ bb.max.z - bb.min.z ≤ 0 then 0
  else (bb.max.x - bb.min.x) * (bb.max.y - bb.min.y) * (bb.max.z - bb.min.z)

/-- `int width = (aabb.max[0] - aabb.min[0]) / resolution + 1.0f;` -/
def gridWidth (bb : AABB) (r : ℚ) : ℤ := cppTrunc ((bb.max.x - bb.min.x) / r + 1)

/-- `int height = (aabb.max[1] - aabb.min[1]) / resolution + 1.0f;` -/
def gridHeight (bb : AABB) (r : ℚ) : ℤ := cppTrunc ((bb.max.y - bb.min.y) / r + 1)

/-- `hmap->fill(lowest)`: the freshly created height map. -/
def initGrid : ℤ × ℤ → ℚ := fun _ => lowest

/-- One coordinate of the rasterizer's binning formula:
`int x = (vertex[0] - aabb.min[0]) / resolution + resolution / 2.0f + 0.5f;`. -/
def binCoord (mn r v : ℚ) : ℤ := cppTrunc ((v - mn) / r + r / 2 + 1 / 2)

/-- Cell index assigned to a point by the rasterizer. -/
def binOf (bb : AABB) (r : ℚ) (p : P3) : ℤ × ℤ :=
  (binCoord bb.min.x r p.x, binCoord bb.min.y r p.y)

/-- One coordinate of the resampler's planar placement:
`float px = (x - resolution / 2.0f) * resolution + aabb.min[0];`. -/
def posCoord (mn r : ℚ) (idx : ℤ) : ℚ := ((idx : ℚ) - r / 2) * r + mn

/-- One rasterizer update: for the point's cell, keep the larger of the stored
height and the point's height (`if (z > height) continue; hmap->at(x,y,0) = height;`);
all other cells are untouched. -/
def rasterStep (bb : AABB) (r : ℚ) (g : ℤ × ℤ → ℚ) (p : P3) : ℤ × ℤ → ℚ :=
  fun c => if c = binOf bb r p then (if g c > p.z then g c else p.z) else g c

/-- The full rasterization loop over the vertex list, starting from the
sentinel-filled grid. -/
def rasterize (bb : AABB) (r : ℚ) (pts : List P3) : ℤ × ℤ → ℚ :=
  pts.foldl (rasterStep bb r) initGrid

lemma cppTrunc_of_nonneg {q : ℚ} (h : 0 ≤ q) : cppTrunc q = ⌊q⌋ := if_pos h

/-- Claim C9 core computation, per coordinate: binning the resampler's
planar position recovers the cell index. -/
theorem bin_posCoord (mn r : ℚ) (x : ℤ) (hr : 0 < r) (hx : 2 ≤ x) :
    binCoord mn r (posCoord mn r x) = x := by
  have hr0 : r ≠ 0 := ne_of_gt hr
  have hval : (posCoord mn r x - mn) / r + r / 2 + 1 / 2 = (x : ℚ) + 1 / 2 := by
    field_simp [posCoord]
    ring
  have hx0 : (0 : ℚ) ≤ (x : ℚ) + 1 / 2 := by
    have : (2 : ℚ) ≤ (x : ℚ) := by exact_mod_cast hx
    linarith
  rw [binCoord, hval, cppTrunc_of_nonneg hx0]
  rw [add_comm, Int.floor_add_int]
  norm_num

/-- C9: for every resolution `r > 0` and every cell index `x` processed by
the resampler (`2 ≤ x`), feeding the planar position `(x - r/2)·r + min`
back through the rasterizer's binning formula yields `x` again; the same
computation covers both coordinates. -/
theorem C9_roundtrip (bb : AABB) (r : ℚ) (x y : ℤ) (hr : 0 < r)
    (hx : 2 ≤ x) (hy : 2 ≤ y) :
    binCoord bb.min.x r (posCoord bb.min.x r x) = x ∧
    binCoord bb.min.y r (posCoord bb.min.y r y) = y :=
  ⟨bin_posCoord _ r x hr hx, bin_posCoord _ r y hr hy⟩

/-- Witness for C9 at `r = 1`, `x = y = 2`, box corner 0. -/
theorem C9_roundtrip_witness :
    binCoord 0 1 (posCoord 0 1 2) = 2 ∧ binCoord 0 1 (posCoord 0 1 2) = 2 :=
  C9_roundtrip ⟨⟨0, 0, 0⟩, ⟨1, 1, 1⟩⟩ 1 2 2 (by norm_num) (by norm_num) (by norm_num)

/-- Concrete cloud whose x-extent over resolution is the non-integer 3/2. -/
def ptsC6 : List P3 := [⟨0, 0, 0⟩, ⟨3 / 2, 3 / 2, 3 / 2⟩]

/-- C6 counterexample: for this positive-volume cloud at resolution 1 the
code's width is `⌊3/2⌋ + 1 = 2`, while the claimed `⌈3/2⌉ + 1` is 3. -/
theorem C6_counterexample :
    0 < volume (aabbOf ptsC6) ∧
    gridWidth (aabbOf ptsC6) 1 = 2 ∧
    ⌈((aabbOf ptsC6).max.x - (aabbOf ptsC6).min.x) / 1⌉ + 1 = 3 := by
  refine ⟨by norm_num [volume, aabbOf, ptsC6, floatMax], ?_, ?_⟩
  · show cppTrunc _ = 2
    norm_num [aabbOf, ptsC6, floatMax, cppTrunc]
  · have h2 : (⌈(3 / 2 : ℚ)⌉ : ℤ) = 2 := by
      rw [Int.ceil_eq_iff]
      norm_num
    norm_num [aabbOf, ptsC6, floatMax, h2]

/-- C6 amended: for a positive-volume cloud and `r > 0` the grid is
`(⌊(max.x-min.x)/r⌋+1) × (⌊(max.y-min.y)/r⌋+1)` (floor, not ceiling),
and every cell of the freshly created grid holds the sentinel. -/
theorem C6_amended (pts : List P3) (r : ℚ)
    (hr : 0 < r) (hv : 0 < volume (aabbOf pts)) :
    gridWidth (aabbOf pts) r = ⌊((aabbOf pts).max.x - (aabbOf pts).min.x) / r⌋ + 1 ∧
    gridHeight (aabbOf pts) r = ⌊((aabbOf pts).max.y - (aabbOf pts).min.y) / r⌋ + 1 ∧
    ∀ c : ℤ × ℤ, initGrid c = lowest := by
  set bb := aabbOf pts
  have hdx : 0 < bb.max.x - bb.min.x := by
    by_contra h
    rw [volume, if_pos (Or.inl (not_lt.mp h))] at hv
    exact lt_irrefl 0 hv
  have hdy : 0 < bb.max.y - bb.min.y := by
    by_contra h
    rw [volume, if_pos (Or.inr (Or.inl (not_lt.mp h)))] at hv
    exact lt_irrefl 0 hv
  have hx : 0 ≤ (bb.max.x - bb.min.x) / r + 1 := by positivity
  have hy : 0 ≤ (bb.max.y - bb.min.y) / r + 1 := by positivity
  refine ⟨?_, ?_, fun _ => rfl⟩
  · rw [gridWidth, cppTrunc_of_nonneg hx]
    exact_mod_cast Int.floor_add_one _
  · rw [gridHeight, cppTrunc_of_nonneg hy]
    exact_mod_cast Int.floor_add_one _

/-- Witness for C6 amended, at the concrete cloud `ptsC6` and `r = 1`. -/
theorem C6_amended_witness :
    gridWidth (aabbOf ptsC6) 1 = ⌊((aabbOf ptsC6).max.x - (aabbOf ptsC6).min.x) / 1⌋ + 1 :=
  (C6_amended ptsC6 1 (by norm_num)
    (by norm_num [volume, aabbOf, ptsC6, floatMax])).1

/-- Concrete cloud witnessing the missing bounds check. -/
def ptsC10 : List P3 := [⟨0, 0, 0⟩, ⟨1, 1, 1⟩]

/-- C10: the rasterizer bins with no clamping: for this positive-volume
cloud at resolution 2, the cloud's own point `(1,1,1)` is assigned cell
x-index 2, but the grid width is 1, so the write is out of bounds. -/
theorem C10_out_of_bounds :
    0 < volume (aabbOf ptsC10) ∧ (0 : ℚ) < 2 ∧
    (⟨1, 1, 1⟩ : P3) ∈ ptsC10 ∧
    gridWidth (aabbOf ptsC10) 2 = 1 ∧
    (binOf (aabbOf ptsC10) 2 ⟨1, 1, 1⟩).1 = 2 := by
  refine ⟨by norm_num [volume, aabbOf, ptsC10, floatMax], by norm_num,
    by simp [ptsC10], ?_, ?_⟩
  · show cppTrunc _ = 1
    norm_num [aabbOf, ptsC10, floatMax, cppTrunc]
  · show cppTrunc _ = 2
    norm_num [aabbOf, ptsC10, floatMax, binCoord, cppTrunc]

/-- The 3×3 height patch around a cell; `hAB` is `heights[A][B]` from
`patch(hmap, x, y, &heights)`, i.e. the height at `(x + A - 1, y + B - 1)`. -/
structure Patch where
  h00 : ℚ
  h01 : ℚ
  h02 : ℚ
  h10 : ℚ
  h11 : ℚ
  h12 : ℚ
  h20 : ℚ
  h21 : ℚ
  h22 : ℚ
deriving DecidableEq

/-- `float rdx = -heights[0][1] + heights[1][1];` (backward difference in x). -/
def rdx (p : Patch) : ℚ := -p.h01 + p.h11

/-- `float rdy = -heights[1][0] + heights[1][1];` (backward difference in y). -/
def rdy (p : Patch) : ℚ := -p.h10 + p.h11

/-- `float fdx = -heights[1][1] + heights[2][1];` (forward difference in x). -/
def fdx (p : Patch) : ℚ := -p.h11 + p.h21

/-- `float fdy = -heights[1][1] + heights[1][2];` (forward difference in y). -/
def fdy (p : Patch) : ℚ := -p.h11 + p.h12

/-- `float m = max(max(rdx, -fdx), max(rdy, -fdy));` -/
def mag (p : Patch) : ℚ := max (max (rdx p) (-fdx p)) (max (rdy p) (-fdy p))

/-- Sobel x response `gx` over the full patch. -/
def gx (p : Patch) : ℚ := -p.h00 + p.h20 + 2 * (-p.h01 + p.h21) + -p.h02 + p.h22

/-- Sobel y response `gy` over the full patch. -/
def gy (p : Patch) : ℚ := -p.h00 + p.h02 + 2 * (-p.h10 + p.h12) + -p.h20 + p.h22

/-- The simultaneous bowl condition tested inside the wall loop:
`fdx > 0.0f && rdx < 0.0f && fdy > 0.0f && rdy < 0.0f`. -/
def bowl (p : Patch) : Prop := 0 < fdx p ∧ rdx p < 0 ∧ 0 < fdy p ∧ rdy p < 0

instance (p : Patch) : Decidable (bowl p) := by
  unfold bowl
  infer_instance

/-- Number of iterations of `for (int i = 1; i <= m / resolution; ++i)`:
the integer `i` runs while `i ≤ m/r`, so `max 0 ⌊m/r⌋` iterations. -/
def wallCount (p : Patch) (r : ℚ) : ℕ := (⌊mag p / r⌋).toNat

/-- A sample's normal, recorded symbolically (the source normalizes with a
square root): `up` is the exact `(0,0,1)`; `blend gx gy` is
`normalize((0,0,1) + normalize(-gx,-gy,0))`; `wall gx gy` is
`normalize(-gx,-gy,0)`. -/
inductive SNormal where
  | up : SNormal
  | blend : ℚ → ℚ → SNormal
  | wall : ℚ → ℚ → SNormal
deriving DecidableEq

/-- An emitted sample: position and (symbolic) normal. -/
structure Sample where
  px : ℚ
  py : ℚ
  pz : ℚ
  nrm : SNormal
deriving DecidableEq

/-- The samples emitted for one interior cell of the Discontinuity
Resampler, in emission order. `gl` is `ground_level`, `px`/`py` the cell's
planar position, `nn pos` models `kd_tree.find_nn(pos, nullptr, r)`. -/
def resampleCell (p : Patch) (r gl px py : ℚ) (fuse : Bool)
    (nn : ℚ → ℚ → ℚ → Bool) : List Sample :=
  if mag p ≤ r then
    if fuse then [] else [⟨px, py, p.h11 + gl, SNormal.up⟩]
  else
    ⟨px, py, p.h11 + gl, SNormal.blend (gx p) (gy p)⟩ ::
      (List.range (wallCount p r)).filterMap fun (j : ℕ) =>
        if fuse && nn px py (gl + p.h11 - ((j : ℚ) + 1) * r) then none
        else if bowl p then none
        else some ⟨px, py, gl + p.h11 - ((j : ℚ) + 1) * r, SNormal.wall (gx p) (gy p)⟩

lemma filterMap_eq_map_of_some {α β : Type} {f : α → Option β} {g : α → β}
    (l : List α) (h : ∀ a ∈ l, f a = some (g a)) : l.filterMap f = l.map g := by
  induction l with
  | nil => rfl
  | cons a l ih =>
    rw [List.filterMap_cons, h a (List.mem_cons_self a l), List.map_cons,
      ih (fun b hb => h b (List.mem_cons_of_mem a hb))]

/-- C2: flat case `m ≤ r`: with fuse off exactly one sample is emitted, at
the cell's planar position, height `surface + ground_level`, normal
`(0,0,1)`; with fuse on nothing is emitted. -/
theorem C2_flat (p : Patch) (r gl px py : ℚ) (nn : ℚ → ℚ → ℚ → Bool)
    (hm : mag p ≤ r) :
    resampleCell p r gl px py false nn = [⟨px, py, p.h11 + gl, SNormal.up⟩] ∧
    (resampleCell p r gl px py false nn).length = 1 ∧
    resampleCell p r gl px py true nn = [] := by
  refine ⟨?_, ?_, ?_⟩ <;> simp [resampleCell, if_pos hm]

/-- A completely flat patch. -/
def flatPatch : Patch := ⟨0, 0, 0, 0, 0, 0, 0, 0, 0⟩

/-- Witness for C2 at the all-zero patch, `r = 1`. -/
theorem C2_flat_witness :
    resampleCell flatPatch 1 0 0 0 false (fun _ _ _ => false) =
      [⟨0, 0, flatPatch.h11 + 0, SNormal.up⟩] :=
  (C2_flat flatPatch 1 0 0 0 (fun _ _ _ => false)
    (by norm_num [mag, rdx, rdy, fdx, fdy, flatPatch])).1

/-- C1: discontinuous case with an exact step `m = k·r` (`k ≥ 1`), fuse
off, bowl condition false: the cell emits the blended surface sample
followed by exactly `k` wall samples at elevations
`ground_level + surface - i·r`, `i = 1..k`; consecutive wall samples are
exactly `r` apart in elevation. -/
theorem C1_wall (p : Patch) (r gl px py : ℚ) (nn : ℚ → ℚ → ℚ → Bool) (k : ℕ)
    (hr : 0 < r) (_hk : 1 ≤ k) (hm : mag p = (k : ℚ) * r) (hmr : r < mag p)
    (hbowl : ¬ bowl p) :
    resampleCell p r gl px py false nn =
      ⟨px, py, p.h11 + gl, SNormal.blend (gx p) (gy p)⟩ ::
        (List.range k).map (fun j =>
          ⟨px, py, gl + p.h11 - ((j : ℚ) + 1) * r, SNormal.wall (gx p) (gy p)⟩) ∧
    (resampleCell p r gl px py false nn).length = 1 + k ∧
    (∀ j : ℕ, j < k →
      ((resampleCell p r gl px py false nn).getD (j + 1) ⟨0, 0, 0, SNormal.up⟩).pz =
        gl + p.h11 - ((j : ℚ) + 1) * r) ∧
    (∀ j : ℕ, j + 1 < k →
      ((resampleCell p r gl px py false nn).getD (j + 1) ⟨0, 0, 0, SNormal.up⟩).pz -
        ((resampleCell p r gl px py false nn).getD (j + 2) ⟨0, 0, 0, SNormal.up⟩).pz = r) := by
  have hr0 : r ≠ 0 := ne_of_gt hr
  have hcount : wallCount p r = k := by
    rw [wallCount, hm, mul_div_cancel_right₀ _ hr0, Int.floor_natCast, Int.toNat_natCast]
  have hflat : ¬ mag p ≤ r := not_le.mpr hmr
  have hlist : resampleCell p r gl px py false nn =
      ⟨px, py, p.h11 + gl, SNormal.blend (gx p) (gy p)⟩ ::
        (List.range k).map (fun j =>
          ⟨px, py, gl + p.h11 - ((j : ℚ) + 1) * r, SNormal.wall (gx p) (gy p)⟩) := by
    rw [resampleCell, if_neg hflat, hcount]
    congr 1
    apply filterMap_eq_map_of_some
    intro j hj
    simp [hbowl]
  have hget : ∀ j : ℕ, j < k →
      ((resampleCell p r gl px py false nn).getD (j + 1) ⟨0, 0, 0, SNormal.up⟩).pz =
        gl + p.h11 - ((j : ℚ) + 1) * r := by
    intro j hj
    rw [hlist, List.getD_cons_succ]
    have hlen : j < ((List.range k).map (fun j : ℕ =>
        (⟨px, py, gl + p.h11 - ((j : ℚ) + 1) * r,
          SNormal.wall (gx p) (gy p)⟩ : Sample))).length := by
      simpa using hj
    rw [List.getD_eq_getElem _ _ hlen]
    simp
  refine ⟨hlist, ?_, hget, ?_⟩
  · rw [hlist]
    simp [Nat.add_comm]
  · intro j hj
    rw [hget j (by omega), show j + 2 = (j + 1) + 1 from rfl, hget (j + 1) hj]
    push_cast
    ring

/-- A two-cell step patch: center at height 2, the cell behind in x at 0,
all other neighbors level with the center. -/
def stepPatch : Patch := ⟨0, 0, 0, 2, 2, 2, 2, 2, 2⟩

/-- Witness for C1 at `stepPatch` (`m = 2 = 2·1`), `r = 1`, `k = 2`. -/
theorem C1_wall_witness :
    resampleCell stepPatch 1 0 0 0 false (fun _ _ _ => false) =
      ⟨0, 0, stepPatch.h11 + 0, SNormal.blend (gx stepPatch) (gy stepPatch)⟩ ::
        (List.range 2).map (fun j =>
          ⟨0, 0, 0 + stepPatch.h11 - ((j : ℚ) + 1) * 1,
            SNormal.wall (gx stepPatch) (gy stepPatch)⟩) :=
  (C1_wall stepPatch 1 0 0 0 (fun _ _ _ => false) 2 (by norm_num) (by norm_num)
    (by norm_num [mag, rdx, rdy, fdx, fdy, stepPatch, max_def])
    (by norm_num [mag, rdx, rdy, fdx, fdy, stepPatch, max_def])
    (by norm_num [bowl, fdx, rdx, fdy, rdy, stepPatch])).1

/-- A bowl patch: center strictly below all four axis neighbors. -/
def bowlPatch : Patch := ⟨1, 1, 1, 1, 0, 1, 1, 1, 1⟩

/-- C3 counterexample: at `bowlPatch` the bowl condition holds, yet the
magnitude is negative, so with `r = 1` the claim's premise `m > r` cannot
hold; the cell is handled by the flat case, and in fuse mode it emits
nothing at all — in particular no surface sample. -/
theorem C3_counterexample :
    bowl bowlPatch ∧ mag bowlPatch < 1 ∧
    resampleCell bowlPatch 1 0 0 0 true (fun _ _ _ => false) = [] := by
  have hm : mag bowlPatch < 1 := by
    norm_num [mag, rdx, rdy, fdx, fdy, bowlPatch, max_def]
  refine ⟨by norm_num [bowl, fdx, rdx, fdy, rdy, bowlPatch], hm, ?_⟩
  rw [resampleCell, if_pos (le_of_lt hm), if_pos rfl]

/-- C3 amended: the bowl condition forces `m = max(rdx,-fdx,rdy,-fdy) < 0`,
so a bowl cell never satisfies `m > r` (for `r > 0`) and the in-loop
concavity check is unreachable; every bowl cell takes the flat branch:
no wall sample is ever emitted for it, and the only sample it can emit is
the flat upward-normal surface sample (none at all in fuse mode). -/
theorem C3_amended (p : Patch) (r gl px py : ℚ) (fuse : Bool)
    (nn : ℚ → ℚ → ℚ → Bool) (hr : 0 < r) (hb : bowl p) :
    mag p < 0 ∧ mag p ≤ r ∧
    (∀ s ∈ resampleCell p r gl px py fuse nn, s.nrm = SNormal.up) ∧
    (fuse = true → resampleCell p r gl px py fuse nn = []) ∧
    (fuse = false → resampleCell p r gl px py fuse nn =
      [⟨px, py, p.h11 + gl, SNormal.up⟩]) := by
  obtain ⟨h1, h2, h3, h4⟩ := hb
  have hneg : mag p < 0 := by
    rw [mag]
    apply max_lt <;> apply max_lt <;> linarith
  have hle : mag p ≤ r := le_of_lt (lt_trans hneg hr)
  refine ⟨hneg, hle, ?_, ?_, ?_⟩
  · intro s hs
    rw [resampleCell, if_pos hle] at hs
    cases fuse with
    | false =>
      simp only [Bool.false_eq_true, if_false, List.mem_singleton] at hs
      rw [hs]
    | true => simp at hs
  · intro hf
    rw [resampleCell, if_pos hle, hf, if_pos rfl]
  · intro hf
    rw [resampleCell, if_pos hle, hf]
    simp

/-- Witness for C3 amended at `bowlPatch`, `r = 1`, fuse off. -/
theorem C3_amended_witness :
    mag bowlPatch < 0 ∧
    resampleCell bowlPatch 1 0 0 0 false (fun _ _ _ => false) =
      [⟨0, 0, bowlPatch.h11 + 0, SNormal.up⟩] := by
  have h := C3_amended bowlPatch 1 0 0 0 false (fun _ _ _ => false)
    (by norm_num) (by norm_num [bowl, fdx, rdx, fdy, rdy, bowlPatch])
  exact ⟨h.1, h.2.2.2.2 rfl⟩

/-- The 9 cells read by `patch(hmap, x, y, &heights)`, in memory order of
the flat `float heights[9]` array. -/
def patchList (g : ℤ → ℤ → ℚ) (x y : ℤ) : List ℚ :=
  [g (x - 1) (y - 1), g (x - 1) y, g (x - 1) (y + 1),
   g x (y - 1), g x y, g x (y + 1),
   g (x + 1) (y - 1), g (x + 1) y, g (x + 1) (y + 1)]

/-- Effect of `std::sort`: a sorted permutation (modelled by insertion sort,
which is proved below to sort and permute). -/
def sortQ (l : List ℚ) : List ℚ := l.insertionSort (· ≤ ·)

/-- `y == 0 || y == height - 1 || x == 0 || x == width - 1`. -/
def isBorder (w h x y : ℤ) : Prop := y = 0 ∨ y = h - 1 ∨ x = 0 ∨ x = w - 1

instance (w h x y : ℤ) : Decidable (isBorder w h x y) := by
  unfold isBorder
  infer_instance

/-- One cell of the median-denoise pass: border cells get the sentinel,
interior cells the 5th of their 9 sorted neighborhood values. -/
def denoise (w h : ℤ) (g : ℤ → ℤ → ℚ) (x y : ℤ) : ℚ :=
  if isBorder w h x y then lowest
  else (sortQ (patchList g x y)).getD 4 lowest

/-- One cell of a hole-filling pass: border cells get the sentinel, valid
interior cells are copied, sentinel interior cells with at least 3 valid
neighborhood values get the sorted values' `n/2`-th element, the rest stay
sentinel. -/
def fillCell (w h : ℤ) (g : ℤ → ℤ → ℚ) (x y : ℤ) : ℚ :=
  if isBorder w h x y then lowest
  else if g x y ≠ lowest then g x y
  else if 3 ≤ ((patchList g x y).filter (· ≠ lowest)).length then
    (sortQ ((patchList g x y).filter (· ≠ lowest))).getD
      (((patchList g x y).filter (· ≠ lowest)).length / 2) lowest
  else lowest

/-- A cell that sets the `holes` flag in a pass: interior, currently
sentinel, with fewer than 3 valid neighborhood values. -/
def unresolvedCell (w h : ℤ) (g : ℤ → ℤ → ℚ) (x y : ℤ) : Bool :=
  decide (¬ isBorder w h x y) && decide (g x y = lowest) &&
    decide (((patchList g x y).filter (· ≠ lowest)).length < 3)

/-- The `holes` flag after one pass: true iff some in-range cell is
unresolved (all threads only ever set it). -/
def fillFlag (w h : ℤ) (g : ℤ → ℤ → ℚ) : Bool :=
  (List.range h.toNat).any fun yn =>
    (List.range w.toNat).any fun xn =>
      unresolvedCell w h g (xn : ℤ) (yn : ℤ)

/-- The `while (holes)` loop, with explicit fuel; `none` means the fuel ran
out before a pass came back clean, `some` is the grid the loop returns. -/
def fillLoop (w h : ℤ) : ℕ → (ℤ → ℤ → ℚ) → Option (ℤ → ℤ → ℚ)
  | 0, _ => none
  | fuel + 1, g =>
    if fillFlag w h g then fillLoop w h fuel (fillCell w h g)
    else some (fillCell w h g)

lemma length_patchList (g : ℤ → ℤ → ℚ) (x y : ℤ) :
    (patchList g x y).length = 9 := rfl

lemma sortQ_perm (l : List ℚ) : (sortQ l).Perm l := List.perm_insertionSort _ l

lemma sortQ_sorted (l : List ℚ) : (sortQ l).Sorted (· ≤ ·) :=
  List.sorted_insertionSort _ l

/-- In a sorted 9-element list bounded below by `lowest` that contains at
least five copies of `lowest`, the 5th element is `lowest`. -/
lemma sorted_getD_lowest {s : List ℚ} (hs : s.Sorted (· ≤ ·))
    (hlen : s.length = 9) (hlow : ∀ v ∈ s, lowest ≤ v)
    (hcnt : 5 ≤ s.count lowest) : s.getD 4 lowest = lowest := by
  have h4 : 4 < s.length := by omega
  rw [List.getD_eq_getElem _ _ h4]
  by_contra hne
  have hmem : s[4] ∈ s := List.getElem_mem h4
  have hgt : lowest < s[4] := lt_of_le_of_ne (hlow _ hmem) (Ne.symm hne)
  have hsplit : s.count lowest =
      (s.take 4).count lowest + (s.drop 4).count lowest := by
    rw [← List.count_append, List.take_append_drop]
  have hdrop : (s.drop 4).count lowest = 0 := by
    rw [List.count_eq_zero]
    intro hmem'
    obtain ⟨i, hi, hget⟩ := List.getElem_of_mem hmem'
    have hidx : 4 + i < s.length := by
      have := hi
      simp [List.length_drop] at this
      omega
    have hgi : s[4 + i] = lowest := by
      rw [← hget, List.getElem_drop]
    have hle : s[4] ≤ s[4 + i] := by
      have h := hs.rel_get_of_le (a := ⟨4, h4⟩) (b := ⟨4 + i, hidx⟩)
        (by exact Fin.mk_le_mk.mpr (by omega))
      simpa [List.get_eq_getElem] using h
    rw [hgi] at hle
    exact absurd hle (not_le.mpr hgt)
  have htake : (s.take 4).count lowest ≤ 4 :=
    le_trans (List.count_le_length _ _) (List.length_take_le _ _)
  omega

/-- C8: the Median Denoiser sets every border cell to the sentinel and
every interior cell to the 5th element of a sorted permutation of its 9
neighborhood values (sentinels participating like ordinary values); in
particular an interior cell whose neighborhood holds at least 5 sentinels
(and no value below the sentinel) becomes the sentinel. -/
theorem C8_median (w h x y : ℤ) (g : ℤ → ℤ → ℚ) (hb : ¬ isBorder w h x y) :
    (∃ s : List ℚ, s.Perm (patchList g x y) ∧ s.Sorted (· ≤ ·) ∧
      s.length = 9 ∧ denoise w h g x y = s.getD 4 lowest) ∧
    (∀ x2 y2 : ℤ, isBorder w h x2 y2 → denoise w h g x2 y2 = lowest) ∧
    ((∀ v ∈ patchList g x y, lowest ≤ v) →
      5 ≤ (patchList g x y).count lowest → denoise w h g x y = lowest) := by
  have hden : denoise w h g x y = (sortQ (patchList g x y)).getD 4 lowest := by
    rw [denoise, if_neg hb]
  refine ⟨⟨sortQ (patchList g x y), sortQ_perm _, sortQ_sorted _, ?_, hden⟩,
    ?_, ?_⟩
  · rw [(sortQ_perm _).length_eq, length_patchList]
  · intro x2 y2 hb2
    rw [denoise, if_pos hb2]
  · intro hlow hcnt
    rw [hden]
    refine sorted_getD_lowest (sortQ_sorted _) ?_ ?_ ?_
    · rw [(sortQ_perm _).length_eq, length_patchList]
    · intro v hv
      exact hlow v ((sortQ_perm _).mem_iff.mp hv)
    · rw [(sortQ_perm _).count_eq]
      exact hcnt

/-- The 5×5 all-sentinel-except-center grid from the spec's test list. -/
def gC8 : ℤ → ℤ → ℚ := fun x y => if x = 2 ∧ y = 2 then 5 else lowest

/-- Witness for C8: the lone valid center of `gC8` median-filters to the
sentinel. -/
theorem C8_median_witness : denoise 5 5 gC8 2 2 = lowest :=
  (C8_median 5 5 2 2 gC8 (by decide)).2.2 (by decide) (by decide)

/-- C4: one hole-filling pass maps border cells to the sentinel, keeps
valid interior cells, replaces a sentinel interior cell having `n ≥ 3`
valid neighborhood values by the `n/2`-th element of a sorted permutation
of those values, and otherwise leaves the cell sentinel and raises the
shared `holes` flag. -/
theorem C4_pass (w h x y : ℤ) (g : ℤ → ℤ → ℚ)
    (hx0 : 0 ≤ x) (hxw : x < w) (hy0 : 0 ≤ y) (hyh : y < h) :
    (isBorder w h x y → fillCell w h g x y = lowest) ∧
    (¬ isBorder w h x y → g x y ≠ lowest → fillCell w h g x y = g x y) ∧
    (¬ isBorder w h x y → g x y = lowest →
      3 ≤ ((patchList g x y).filter (· ≠ lowest)).length →
      ∃ s : List ℚ, s.Perm ((patchList g x y).filter (· ≠ lowest)) ∧
        s.Sorted (· ≤ ·) ∧
        fillCell w h g x y =
          s.getD (((patchList g x y).filter (· ≠ lowest)).length / 2) lowest) ∧
    (¬ isBorder w h x y → g x y = lowest →
      ((patchList g x y).filter (· ≠ lowest)).length < 3 →
      fillCell w h g x y = lowest ∧ fillFlag w h g = true) := by
  refine ⟨fun hb => by rw [fillCell, if_pos hb],
    fun hb hne => by rw [fillCell, if_neg hb, if_pos hne], ?_, ?_⟩
  · intro hb hsent hn
    refine ⟨sortQ _, sortQ_perm _, sortQ_sorted _, ?_⟩
    rw [fillCell, if_neg hb, if_neg (by simpa using hsent), if_pos hn]
  · intro hb hsent hn
    constructor
    · rw [fillCell, if_neg hb, if_neg (by simpa using hsent),
        if_neg (not_le.mpr hn)]
    · rw [fillFlag, List.any_eq_true]
      refine ⟨y.toNat, List.mem_range.mpr (by omega), ?_⟩
      rw [List.any_eq_true]
      refine ⟨x.toNat, List.mem_range.mpr (by omega), ?_⟩
      have hxc : ((x.toNat : ℤ)) = x := Int.toNat_of_nonneg hx0
      have hyc : ((y.toNat : ℤ)) = y := Int.toNat_of_nonneg hy0
      rw [unresolvedCell, hxc, hyc, Bool.and_eq_true, Bool.and_eq_true]
      exact ⟨⟨decide_eq_true hb, decide_eq_true hsent⟩, decide_eq_true hn⟩

/-- A 5×5 grid with a single interior hole at (2,2), its other interior
cells valid. -/
def gC4 : ℤ → ℤ → ℚ := fun x y =>
  if x = 2 ∧ y = 2 then lowest
  else if 1 ≤ x ∧ x ≤ 3 ∧ 1 ≤ y ∧ y ≤ 3 then 7 else lowest

/-- Witness for C4 at the isolated hole of `gC4`: the hole is filled with
the median of its 8 valid neighbors. -/
theorem C4_pass_witness : fillCell 5 5 gC4 2 2 = 7 := by
  obtain ⟨s, hperm, _hsort, heq⟩ :=
    (C4_pass 5 5 2 2 gC4 (by norm_num) (by norm_num) (by norm_num)
      (by norm_num)).2.2.1 (by decide) (by decide) (by decide)
  have hall : ∀ v ∈ (patchList gC4 2 2).filter (· ≠ lowest), v = 7 := by
    decide
  have hlen : s.length = 8 := by
    rw [hperm.length_eq]
    decide
  have h42 : ((patchList gC4 2 2).filter (· ≠ lowest)).length / 2 = 4 := by
    decide
  have hmem : s.getD 4 lowest ∈ s := by
    rw [List.getD_eq_getElem _ _ (by omega)]
    exact List.getElem_mem (by omega)
  rw [heq, h42]
  exact hall _ (hperm.mem_iff.mp hmem)

lemma fillFlag_false_no_unresolved {w h : ℤ} {g : ℤ → ℤ → ℚ}
    (hflag : fillFlag w h g = false) {x y : ℤ}
    (hx0 : 0 ≤ x) (hxw : x < w) (hy0 : 0 ≤ y) (hyh : y < h) :
    unresolvedCell w h g x y = false := by
  by_contra hc
  have hc2 : unresolvedCell w h g x y = true := by
    cases hu : unresolvedCell w h g x y
    · exact absurd hu hc
    · rfl
  have : fillFlag w h g = true := by
    rw [fillFlag, List.any_eq_true]
    refine ⟨y.toNat, List.mem_range.mpr (by omega), ?_⟩
    rw [List.any_eq_true]
    refine ⟨x.toNat, List.mem_range.mpr (by omega), ?_⟩
    rw [Int.toNat_of_nonneg hx0, Int.toNat_of_nonneg hy0]
    exact hc2
  rw [hflag] at this
  exact Bool.false_ne_true this

lemma fillCell_ne_lowest {w h x y : ℤ} {g : ℤ → ℤ → ℚ}
    (hflag : fillFlag w h g = false)
    (hx0 : 0 ≤ x) (hxw : x < w) (hy0 : 0 ≤ y) (hyh : y < h)
    (hb : ¬ isBorder w h x y) : fillCell w h g x y ≠ lowest := by
  have hcell := fillFlag_false_no_unresolved hflag hx0 hxw hy0 hyh
  rw [unresolvedCell, Bool.and_eq_false_iff, Bool.and_eq_false_iff] at hcell
  by_cases hsent : g x y = lowest
  · have hn : 3 ≤ ((patchList g x y).filter (· ≠ lowest)).length := by
      rcases hcell with (hcb | hcs) | hcn
      · exact absurd hb (by simpa using hcb)
      · exact absurd hsent (by simpa using hcs)
      · exact not_lt.mp (by simpa using hcn)
    rw [fillCell, if_neg hb, if_neg (by simpa using hsent), if_pos hn]
    set vals := (patchList g x y).filter (· ≠ lowest) with hvals
    have hlen : (sortQ vals).length = vals.length := (sortQ_perm _).length_eq
    have hidx : vals.length / 2 < (sortQ vals).length := by
      rw [hlen]
      omega
    rw [List.getD_eq_getElem _ _ hidx]
    have hmem : (sortQ vals)[vals.length / 2] ∈ vals :=
      (sortQ_perm _).mem_iff.mp (List.getElem_mem hidx)
    have := List.of_mem_filter hmem
    simpa using this
  · rw [fillCell, if_neg hb, if_pos hsent]
    exact hsent

/-- C5 amended: whenever the hole-filling loop terminates, every in-range
interior cell of the grid it returns is non-sentinel (border cells, by
contrast, are re-sentineled every pass and stay sentinel). -/
theorem C5_amended (w h : ℤ) (fuel : ℕ) (g gf : ℤ → ℤ → ℚ)
    (hterm : fillLoop w h fuel g = some gf) :
    ∀ x y : ℤ, 0 ≤ x → x < w → 0 ≤ y → y < h → ¬ isBorder w h x y →
      gf x y ≠ lowest := by
  induction fuel generalizing g with
  | zero => exact absurd hterm (by simp [fillLoop])
  | succ n ih =>
    rw [fillLoop] at hterm
    cases hf : fillFlag w h g with
    | true =>
      rw [hf] at hterm
      simp only [if_true] at hterm
      exact ih _ hterm
    | false =>
      rw [hf] at hterm
      simp only [Bool.false_eq_true, if_false, Option.some.injEq] at hterm
      intro x y hx0 hxw hy0 hyh hb
      rw [← hterm]
      exact fillCell_ne_lowest hf hx0 hxw hy0 hyh hb

/-- A 3×3 grid whose single interior cell is valid. -/
def gC5 : ℤ → ℤ → ℚ := fun _ _ => 5

/-- C5 counterexample: on `gC5` the loop terminates after one pass, yet
the returned grid still holds the sentinel at the border cell (0,0). -/
theorem C5_counterexample :
    fillLoop 3 3 1 gC5 = some (fillCell 3 3 gC5) ∧
    fillCell 3 3 gC5 0 0 = lowest := by
  constructor
  · have hflag : fillFlag 3 3 gC5 = false := by decide
    rw [fillLoop, hflag]
    simp
  · rw [fillCell, if_pos (by norm_num [isBorder])]

/-- Witness for C5 amended: the interior cell of the terminated 3×3 run is
non-sentinel. -/
theorem C5_amended_witness : fillCell 3 3 gC5 1 1 ≠ lowest := by
  have hflag : fillFlag 3 3 gC5 = false := by decide
  have hterm : fillLoop 3 3 1 gC5 = some (fillCell 3 3 gC5) := by
    rw [fillLoop, hflag]
    simp
  exact C5_amended 3 3 1 gC5 (fillCell 3 3 gC5) hterm 1 1 (by norm_num)
    (by norm_num) (by norm_num) (by norm_num) (by decide)

lemma ifmax_eq_max (a z : ℚ) : (if a > z then a else z) = max a z := by
  rcases le_or_lt a z with h | h
  · rw [if_neg (not_lt.mpr h), max_eq_right h]
  · rw [if_pos h, max_eq_left (le_of_lt h)]

/-- The stored value of one cell after the whole rasterization loop is a
fold of the step update over exactly the heights binned to that cell. -/
lemma rasterize_foldl (bb : AABB) (r : ℚ) (pts : List P3) (g0 : ℤ × ℤ → ℚ)
    (c : ℤ × ℤ) :
    (pts.foldl (rasterStep bb r) g0) c =
      ((pts.filter (fun p => binOf bb r p = c)).map P3.z).foldl
        (fun a z => if a > z then a else z) (g0 c) := by
  induction pts generalizing g0 with
  | nil => rfl
  | cons p pts ih =>
    rw [List.foldl_cons]
    by_cases hp : binOf bb r p = c
    · rw [List.filter_cons_of_pos (by simp [hp]), List.map_cons,
        List.foldl_cons, ih]
      congr 1
      rw [rasterStep, if_pos hp.symm]
    · rw [List.filter_cons_of_neg (by simp [hp]), ih]
      congr 1
      rw [rasterStep, if_neg (fun hc => hp hc.symm)]

lemma foldl_max_init_le (l : List ℚ) (a : ℚ) : a ≤ l.foldl max a := by
  induction l generalizing a with
  | nil => exact le_refl a
  | cons b l ih => exact le_trans (le_max_left a b) (ih _)

lemma foldl_max_le (l : List ℚ) (a : ℚ) : ∀ x ∈ l, x ≤ l.foldl max a := by
  induction l generalizing a with
  | nil => intro x hx; cases hx
  | cons b l ih =>
    intro x hx
    rcases List.mem_cons.mp hx with rfl | hx2
    · exact le_trans (le_max_right a x) (foldl_max_init_le l _)
    · exact ih _ x hx2

lemma foldl_max_mem (l : List ℚ) (a : ℚ) :
    l.foldl max a = a ∨ l.foldl max a ∈ l := by
  induction l generalizing a with
  | nil => exact Or.inl rfl
  | cons b l ih =>
    rw [List.foldl_cons]
    rcases ih (max a b) with h | h
    · rcases max_choice a b with hm | hm
      · exact Or.inl (by rw [h, hm])
      · exact Or.inr (by rw [h, hm]; exact List.mem_cons_self b l)
    · exact Or.inr (List.mem_cons_of_mem b h)

lemma foldl_max_perm {l1 l2 : List ℚ} (hp : l1.Perm l2) (a : ℚ) :
    l1.foldl max a = l2.foldl max a := by
  induction hp generalizing a with
  | nil => rfl
  | cons x _ ih => rw [List.foldl_cons, List.foldl_cons, ih]
  | swap x y l => rw [List.foldl_cons, List.foldl_cons, List.foldl_cons,
      List.foldl_cons, sup_right_comm]
  | trans _ _ ih1 ih2 => exact (ih1 a).trans (ih2 a)

/-- C7: after rasterization, a cell hit by at least one point holds the
maximum `z` among the points binned to it; a cell hit by no point stays
sentinel; and the whole result is invariant under permutation of the
input order. -/
theorem C7_raster (bb : AABB) (r : ℚ) (pts pts2 : List P3) (c : ℤ × ℤ)
    (hz : ∀ p ∈ pts, lowest ≤ p.z) :
    ((∃ p ∈ pts, binOf bb r p = c) →
      (∃ p ∈ pts, binOf bb r p = c ∧ rasterize bb r pts c = p.z) ∧
      ∀ p ∈ pts, binOf bb r p = c → p.z ≤ rasterize bb r pts c) ∧
    ((∀ p ∈ pts, binOf bb r p ≠ c) → rasterize bb r pts c = lowest) ∧
    (pts.Perm pts2 → rasterize bb r pts c = rasterize bb r pts2 c) := by
  have hchar : ∀ q : List P3, rasterize bb r q c =
      ((q.filter (fun p => binOf bb r p = c)).map P3.z).foldl max lowest := by
    intro q
    rw [rasterize, rasterize_foldl]
    simp only [ifmax_eq_max]
    rfl
  refine ⟨?_, ?_, ?_⟩
  · rintro ⟨p0, hp0, hbin0⟩
    have hmemL : p0.z ∈ (pts.filter (fun p => binOf bb r p = c)).map P3.z :=
      List.mem_map_of_mem _ (List.mem_filter.mpr ⟨hp0, by simp [hbin0]⟩)
    constructor
    · rcases foldl_max_mem ((pts.filter (fun p => binOf bb r p = c)).map P3.z)
        lowest with h | h
      · refine ⟨p0, hp0, hbin0, ?_⟩
        have hle : p0.z ≤ rasterize bb r pts c := by
          rw [hchar]
          exact foldl_max_le _ _ _ hmemL
        have hge : rasterize bb r pts c ≤ p0.z := by
          rw [hchar, h]
          exact hz p0 hp0
        exact le_antisymm hge hle
      · obtain ⟨p1, hp1, hz1⟩ := List.mem_map.mp h
        have hp1f := List.mem_filter.mp hp1
        exact ⟨p1, hp1f.1, by simpa using hp1f.2, by rw [hchar]; exact hz1.symm⟩
    · intro p hp hbin
      rw [hchar]
      exact foldl_max_le _ _ _
        (List.mem_map_of_mem _ (List.mem_filter.mpr ⟨hp, by simp [hbin]⟩))
  · intro hnone
    rw [hchar]
    have hnil : pts.filter (fun p => binOf bb r p = c) = [] := by
      rw [List.filter_eq_nil_iff]
      intro p hp
      simp [hnone p hp]
    rw [hnil]
    rfl
  · intro hperm
    rw [hchar, hchar]
    exact foldl_max_perm ((hperm.filter _).map _) _

/-- Bounding box for the C7 witness cloud. -/
def bbW : AABB := ⟨⟨0, 0, 0⟩, ⟨4, 4, 4⟩⟩

/-- Two points binned to the same cell, heights 5 and 7. -/
def ptsW : List P3 := [⟨0, 0, 5⟩, ⟨0, 0, 7⟩]

lemma binW : binOf bbW 1 (⟨0, 0, 7⟩ : P3) = (1, 1) := by
  have h : ((0 : ℚ) - 0) / 1 + 1 / 2 + 1 / 2 = 1 := by norm_num
  rw [binOf]
  show (binCoord 0 1 0, binCoord 0 1 0) = (1, 1)
  rw [binCoord, h, cppTrunc, if_pos (by norm_num : (0 : ℚ) ≤ 1), Int.floor_one]

/-- Witness for C7: the later point's height 7 bounds the cell value. -/
theorem C7_raster_witness : (7 : ℚ) ≤ rasterize bbW 1 ptsW (1, 1) := by
  have h := (C7_raster bbW 1 ptsW ptsW (1, 1) (by decide)).1
    ⟨⟨0, 0, 7⟩, by simp [ptsW], binW⟩
  exact h.2 ⟨0, 0, 7⟩ (by simp [ptsW]) binW

end UAVMVS
